import Mathlib

/-!
Shallow embedding of the core components of the AgenticGovernance-ArtemisCity
repository: the Hebbian weight store (`src/hebbian_weights.py`), the
governance monitor (`src/integration/governance.py`), the agent registry
(`src/integration/agent_registry.py`), and the write-through memory bus
(`src/integration/memory_bus.py`) together with its two backing stores, the
local vector store (`mcp/vector_store.py`) and the Obsidian document manager
(`obsidian_integration/manager.py`).

Stateful Python classes become explicit state-passing functions; SQLite
tables become ordered association lists (iteration order mirrors rowid /
insertion order); SQL REAL and Python floats become `ℚ`; fallible calls
return `Except`.  Wall-clock timestamps and latency metrics are omitted:
no claim depends on them.
-/

namespace ArtemisCity

/-! ### Hebbian weight store (`src/hebbian_weights.py`)

One row of the `node_connections` table.  `last_updated` / `created_at`
timestamps are dropped.  The table has `UNIQUE(origin_node, target_node)`;
the list models rows in rowid order. -/

structure Edge where
  origin_node : String
  target_node : String
  weight : ℚ
  activation_count : ℕ
  success_count : ℕ
  failure_count : ℕ
  deriving Repr, DecidableEq

structure HebbianStore where
  edges : List Edge
  deriving Repr, DecidableEq

def edgeMatches (origin target : String) (e : Edge) : Bool :=
  e.origin_node == origin && e.target_node == target

/-- Embeds `get_weight`: `SELECT weight ... WHERE origin_node = ? AND target_node = ?`,
returning `0.0` when the connection does not exist. -/
def get_weight (s : HebbianStore) (origin target : String) : ℚ :=
  match s.edges.find? (edgeMatches origin target) with
  | some e => e.weight
  | none => 0

/-- Embeds `get_connection_stats`: the full row for a connection, or `none`. -/
def get_connection_stats (s : HebbianStore) (origin target : String) : Option Edge :=
  s.edges.find? (edgeMatches origin target)

/-- Embeds `strengthen_connection`: reads the current weight, then runs
`INSERT ... VALUES (?, ?, new_weight, 1, 1, ...) ON CONFLICT DO UPDATE SET
weight = weight + 1, activation_count = activation_count + 1,
success_count = success_count + 1`; returns `current + 1`. -/
def strengthen_connection (s : HebbianStore) (origin target : String) :
    ℚ × HebbianStore :=
  let current_weight := get_weight s origin target
  let new_weight := current_weight + 1
  let edges :=
    if s.edges.any (edgeMatches origin target) then
      s.edges.map fun e =>
        if edgeMatches origin target e then
          { e with weight := e.weight + 1,
                   activation_count := e.activation_count + 1,
                   success_count := e.success_count + 1 }
        else e
    else
      s.edges ++ [{ origin_node := origin, target_node := target,
                    weight := new_weight, activation_count := 1,
                    success_count := 1, failure_count := 0 }]
  (new_weight, ⟨edges⟩)

/-- Embeds `weaken_connection`: reads the current weight, then runs
`INSERT ... VALUES (?, ?, new_weight, 1, 1, ...) ON CONFLICT DO UPDATE SET
weight = MAX(0, weight - 1), activation_count = activation_count + 1,
failure_count = failure_count + 1`; returns `max(0, current - 1)`. -/
def weaken_connection (s : HebbianStore) (origin target : String) :
    ℚ × HebbianStore :=
  let current_weight := get_weight s origin target
  let new_weight := max 0 (current_weight - 1)
  let edges :=
    if s.edges.any (edgeMatches origin target) then
      s.edges.map fun e =>
        if edgeMatches origin target e then
          { e with weight := max 0 (e.weight - 1),
                   activation_count := e.activation_count + 1,
                   failure_count := e.failure_count + 1 }
        else e
    else
      s.edges ++ [{ origin_node := origin, target_node := target,
                    weight := new_weight, activation_count := 1,
                    success_count := 0, failure_count := 1 }]
  (new_weight, ⟨edges⟩)

/-- Embeds `prune_weak_connections`: `DELETE FROM node_connections WHERE weight <= ?`,
returning the SQLite rowcount of deleted rows. -/
def prune_weak_connections (s : HebbianStore) (threshold : ℚ) :
    ℕ × HebbianStore :=
  let kept := s.edges.filter fun e => !(decide (e.weight ≤ threshold))
  (s.edges.length - kept.length, ⟨kept⟩)

/-! ### Governance monitor (`src/integration/governance.py`)

The JSONL event log on disk duplicates `_events`; we model the in-memory
list.  Timestamps are dropped; a failure event keeps its payload
(`doc_id`/`path`/`error` serialized by the caller), an alert event keeps
the `failures_in_streak` counter it records. -/

inductive GovEvent where
  | failure (payload : String)
  | alert (failures_in_streak : ℕ)
  deriving Repr, DecidableEq

structure GovernanceMonitor where
  alert_threshold : ℕ
  failure_streak : ℕ
  events : List GovEvent
  deriving Repr, DecidableEq

/-- Embeds `record_failure`: increments the streak, appends the failure event, and
when the streak reaches `alert_threshold` also appends an alert event and
returns `True`. -/
def record_failure (m : GovernanceMonitor) (payload : String) :
    Bool × GovernanceMonitor :=
  let streak := m.failure_streak + 1
  let m1 : GovernanceMonitor :=
    { m with failure_streak := streak,
             events := m.events ++ [GovEvent.failure payload] }
  if m.alert_threshold ≤ streak then
    (true, { m1 with events := m1.events ++ [GovEvent.alert streak] })
  else
    (false, m1)

/-- Embeds `record_success`: resets the failure streak to zero. -/
def record_success (m : GovernanceMonitor) : GovernanceMonitor :=
  { m with failure_streak := 0 }

/-- Embeds `get_failure_streak`: a pure read, returned together with the
(unchanged) state to make mutation-freedom statable. -/
def get_failure_streak (m : GovernanceMonitor) : ℕ × GovernanceMonitor :=
  (m.failure_streak, m)

/-- Embeds `get_recent_events`: Python `self._events[-limit:]` (the whole list when
`limit = 0`), returned with the unchanged state. -/
def get_recent_events (m : GovernanceMonitor) (limit : ℕ) :
    List GovEvent × GovernanceMonitor :=
  (if limit = 0 then m.events else m.events.drop (m.events.length - limit), m)

/-- Runs `N` consecutive `record_failure` calls; the `Bool` is the return value of
the last call (`false` for `N = 0`, where no call happened). -/
def record_failures (m : GovernanceMonitor) : ℕ → Bool × GovernanceMonitor
  | 0 => (false, m)
  | n + 1 => record_failure (record_failures m n).2 ""

/-! ### Agent registry (`src/integration/agent_registry.py`)

`self.agents` is an insertion-ordered dict of agents (we keep the fields the
registry actually reads: name and capability list); `self.scores` is an
insertion-ordered dict from agent name to `AgentScore`.  The SQLite
`AgentRegistryStore` mirror is dropped: the routing and score-update logic
reads only the in-memory dicts, and `store.upsert_agent`'s persisted score
is modelled by the `persisted` argument of `register_agent`. -/

structure AgentScore where
  alignment : ℚ
  accuracy : ℚ
  efficiency : ℚ
  deriving Repr, DecidableEq

/-- Embeds `AgentScore.composite_score`:
`alignment * 0.4 + accuracy * 0.4 + efficiency * 0.2`. -/
def composite_score (s : AgentScore) : ℚ :=
  s.alignment * 0.4 + s.accuracy * 0.4 + s.efficiency * 0.2

structure AgentInfo where
  name : String
  capabilities : List String
  deriving Repr, DecidableEq

structure AgentRegistry where
  agents : List AgentInfo
  scores : List (String × AgentScore)
  deriving Repr, DecidableEq

/-- First matching entry of `self.scores` for a name (`self.scores[name]`
is a `KeyError` when this is `none`). -/
def scoreOf (r : AgentRegistry) (name : String) : Option AgentScore :=
  (r.scores.find? fun p => p.1 == name).map (·.2)

/-- Embeds `register_agent`: a no-op when the name is already registered; otherwise
records the agent and the score returned by `store.upsert_agent` (the
persisted DB score when one exists, else the default `(0.5, 0.5, 0.5)`). -/
def register_agent (r : AgentRegistry) (a : AgentInfo)
    (persisted : Option AgentScore) : AgentRegistry :=
  if r.agents.any fun b => b.name == a.name then r
  else
    let default_score : AgentScore := ⟨0.5, 0.5, 0.5⟩
    let persisted_score := persisted.getD default_score
    { agents := r.agents ++ [a],
      scores := r.scores ++ [(a.name, persisted_score)] }

/-- The two `ValueError`s raised by `route_task`, per the spec's taxonomy:
a task without a (non-empty) `required_capability`, and a capability no
registered agent declares. -/
inductive RouteError where
  | missingCapability
  | noCapableAgent
  deriving Repr, DecidableEq

/-- One comparison step of Python `max(xs, key)`: the incumbent is replaced
only by a strictly greater key. -/
def pyStep {α : Type} (key : α → ℚ) (best y : α) : α :=
  if key best < key y then y else best

/-- Python `max(xs, key)`: folds left keeping the current maximum and
replacing it only on a strictly greater key, so the first maximal element
wins ties; `none` on the empty list (where Python raises). -/
def pyMax {α : Type} (key : α → ℚ) : List α → Option α
  | [] => none
  | x :: xs => some (xs.foldl (pyStep key) x)

/-- Composite score `route_task` reads through `self.scores[agent_name]`;
total here via the registry default, exercised only on names that have a
score entry in the theorems below (elsewhere the source raises `KeyError`). -/
def compositeOf (r : AgentRegistry) (name : String) : ℚ :=
  composite_score ((scoreOf r name).getD ⟨0.5, 0.5, 0.5⟩)

/-- The `candidates` list comprehension of `route_task`: names of the
registered agents whose capability list contains the required capability,
in registration order. -/
def capable_agents (r : AgentRegistry) (c : String) : List String :=
  (r.agents.filter fun a => decide (c ∈ a.capabilities)).map (·.name)

/-- Embeds `route_task`: `task.get("required_capability")` is the argument
(`none` for a missing key); `if not required_capability` also catches the
empty string.  Candidates are the registered agents declaring the
capability, in registration order; the winner is Python
`max(candidates, key=composite_score)`. -/
def route_task (r : AgentRegistry) (required_capability : Option String) :
    Except RouteError String :=
  match required_capability with
  | none => Except.error RouteError.missingCapability
  | some c =>
    if c = "" then Except.error RouteError.missingCapability
    else
      match pyMax (compositeOf r) (capable_agents r c) with
      | none => Except.error RouteError.noCapableAgent
      | some best => Except.ok best

/-- The three score dimensions `update_score` may be called with. -/
inductive Dim where
  | alignment
  | accuracy
  | efficiency
  deriving Repr, DecidableEq

def getDim (s : AgentScore) : Dim → ℚ
  | Dim.alignment => s.alignment
  | Dim.accuracy => s.accuracy
  | Dim.efficiency => s.efficiency

def setDim (s : AgentScore) : Dim → ℚ → AgentScore
  | Dim.alignment, v => { s with alignment := v }
  | Dim.accuracy, v => { s with accuracy := v }
  | Dim.efficiency, v => { s with efficiency := v }

/-- Embeds `update_score`: silent no-op for an unknown agent name; otherwise sets
the named dimension to `max(0.0, min(1.0, current + delta))` (and persists
it to the store, which we do not model separately). -/
def update_score (r : AgentRegistry) (agent_id : String) (dimension : Dim)
    (delta : ℚ) : AgentRegistry :=
  match scoreOf r agent_id with
  | none => r
  | some current =>
    let new_score := max 0 (min 1 (getDim current dimension + delta))
    { r with
      scores := r.scores.map fun p =>
        if p.1 == agent_id then (p.1, setDim p.2 dimension new_score) else p }

/-- A sequence of `update_score` calls, applied left to right. -/
def update_scores (r : AgentRegistry) (calls : List (String × Dim × ℚ)) :
    AgentRegistry :=
  calls.foldl (fun acc c => update_score acc c.1 c.2.1 c.2.2) r

/-- All three dimensions within `[0, 1]`. -/
def ScoreInRange (s : AgentScore) : Prop :=
  0 ≤ s.alignment ∧ s.alignment ≤ 1 ∧ 0 ≤ s.accuracy ∧ s.accuracy ≤ 1 ∧
    0 ≤ s.efficiency ∧ s.efficiency ≤ 1

instance : DecidablePred ScoreInRange := fun s => by
  unfold ScoreInRange; infer_instance

/-! ### Local vector store (`mcp/vector_store.py`)

The `vectors` SQLite table (`doc_id` primary key) as an ordered list;
`fetch_all` iterates in insertion order.  Embeddings are produced by the
injectable `embedding_fn` constructor argument, modelled as an explicit
`embed_fn` parameter into `List ℚ`; the float cosine similarity
(`_cosine_similarity`, which divides by square-root norms) is likewise a
parameter `sim` — no claim below depends on the numeric value of a
similarity score. -/

structure VecRecord where
  doc_id : String
  embedding : List ℚ
  metadata : List (String × String)
  content : String
  deriving Repr, DecidableEq

structure VectorStore where
  records : List VecRecord
  deriving Repr, DecidableEq

/-- Embeds `upsert`: `INSERT ... ON CONFLICT(doc_id) DO UPDATE` — replaces the
existing row in place, else appends a new row. -/
def vs_upsert (embed_fn : String → List ℚ) (v : VectorStore)
    (doc_id content : String) (metadata : List (String × String)) :
    VectorStore :=
  let record : VecRecord :=
    ⟨doc_id, embed_fn content, metadata, content⟩
  if v.records.any fun r => r.doc_id == doc_id then
    ⟨v.records.map fun r => if r.doc_id == doc_id then record else r⟩
  else
    ⟨v.records ++ [record]⟩

/-- Embeds `delete`: `DELETE FROM vectors WHERE doc_id = ?`. -/
def vs_delete (v : VectorStore) (doc_id : String) : VectorStore :=
  ⟨v.records.filter fun r => !(r.doc_id == doc_id)⟩

/-- Embeds `count`: `SELECT COUNT(*) FROM vectors`. -/
def vs_count (v : VectorStore) : ℕ :=
  v.records.length

/-- A scored row of `query` with `include_content=True`:
`(doc_id, score, metadata, content)`. -/
structure VecHit where
  doc_id : String
  score : ℚ
  metadata : List (String × String)
  content : String
  deriving Repr, DecidableEq

/-- Insert a scored row into a descending-sorted list, in front of the
first row whose score is at most its own — so among equal scores the
inserted (originally earlier) row comes first. -/
def insert_desc (h : VecHit) : List VecHit → List VecHit
  | [] => [h]
  | y :: ys => if y.score ≤ h.score then h :: y :: ys else y :: insert_desc h ys

/-- Stable descending sort by score: Python `scored.sort(key=score,
reverse=True)` — stable, so ties keep store iteration order. -/
def sort_desc (l : List VecHit) : List VecHit :=
  l.foldr insert_desc []

/-- Embeds `query(text, top_k, include_content=True)`: score every stored record
against the embedded query, sort descending by score (stable), truncate
to `top_k`. -/
def vs_query (embed_fn : String → List ℚ) (sim : List ℚ → List ℚ → ℚ)
    (v : VectorStore) (text : String) (top_k : ℕ) : List VecHit :=
  let query_embedding := embed_fn text
  let scored := v.records.map fun r =>
    VecHit.mk r.doc_id (sim query_embedding r.embedding) r.metadata r.content
  (sort_desc scored).take top_k

/-! ### Obsidian document manager (`obsidian_integration/manager.py`)

The vault is a map from vault-relative path to file text, as an ordered
association list.  `read_note` returns `none` for a missing file and the
full text (possibly empty) otherwise; `write_note` with the default
`overwrite=True` replaces the content, creating the file if needed. -/

structure DocStore where
  notes : List (String × String)
  deriving Repr, DecidableEq

def read_note (d : DocStore) (relative_path : String) : Option String :=
  (d.notes.find? fun p => p.1 == relative_path).map (·.2)

def write_note (d : DocStore) (relative_path content : String) : DocStore :=
  if d.notes.any fun p => p.1 == relative_path then
    ⟨d.notes.map fun p => if p.1 == relative_path then (p.1, content) else p⟩
  else
    ⟨d.notes ++ [(relative_path, content)]⟩

/-! ### Memory bus (`src/integration/memory_bus.py`) -/

/-- Which read tier produced a hit (the `source` field of a result dict). -/
inductive Source where
  | exact
  | keyword
  | vector
  deriving Repr, DecidableEq

/-- One read result.  Latency fields are dropped; `path` is `Option`
because a vector hit's path is `metadata.get("path")`, which is Python
`None` when the metadata has no `path` key. -/
structure Hit where
  source : Source
  path : Option String
  content : String
  score : ℚ
  deriving Repr, DecidableEq

/-- Bus-owned state: the two stores plus the optional governance monitor
(`governance_monitor=None` by default in the constructor). -/
structure BusState where
  vec : VectorStore
  doc : DocStore
  gov : Option GovernanceMonitor
  deriving Repr, DecidableEq

/-- Embeds `_normalize_doc_id`: `relative_path.replace(" ", "_")`. -/
def normalize_doc_id (relative_path : String) : String :=
  relative_path.replace " " "_"

/-- Embeds `dict.update`: entries of `new` override entries of `base`. -/
def dict_update (base new : List (String × String)) :
    List (String × String) :=
  new.foldl
    (fun acc kv =>
      if acc.any fun p => p.1 == kv.1 then
        acc.map fun p => if p.1 == kv.1 then kv else p
      else acc ++ [kv])
    base

/-- Embeds `_record_governance_failure`: no-op without a monitor; otherwise calls
`record_failure` with the `{doc_id, path, error}` event (the returned alert
flag is only logged). -/
def record_governance_failure (gov : Option GovernanceMonitor)
    (doc_id path error : String) : Option GovernanceMonitor :=
  match gov with
  | none => none
  | some m =>
    some (record_failure m (doc_id ++ "|" ++ path ++ "|" ++ error)).2

/-- Embeds `_record_governance_success`: no-op without a monitor, else
`record_success`. -/
def record_governance_success (gov : Option GovernanceMonitor) :
    Option GovernanceMonitor :=
  match gov with
  | none => none
  | some m => some (record_success m)

/-- Embeds `write_note_with_embedding`.  `fail?` injects the deterministic failure
of the Obsidian `write_note` call (`some exc` makes it raise `exc` — sole
fallible step; the rollback `delete` itself is assumed to succeed).  Vector
write first when `embed`; on document-write failure the semantic write is
rolled back and governance notified (both only when `embed`), and the
original exception is re-raised; on success governance's streak is reset.
Returns the final state and `.ok`/the re-raised exception. -/
def write_note_with_embedding (embed_fn : String → List ℚ)
    (fail? : Option String) (s : BusState) (relative_path content : String)
    (metadata : List (String × String)) (embed : Bool) :
    BusState × Except String Unit :=
  let doc_id := normalize_doc_id relative_path
  let write_metadata := dict_update [("path", relative_path)] metadata
  let vec1 := if embed then vs_upsert embed_fn s.vec doc_id content write_metadata
              else s.vec
  match fail? with
  | some exc =>
    if embed then
      let vec2 := vs_delete vec1 doc_id
      let gov2 := record_governance_failure s.gov doc_id relative_path exc
      (⟨vec2, s.doc, gov2⟩, Except.error exc)
    else
      (⟨vec1, s.doc, s.gov⟩, Except.error exc)
  | none =>
    let doc2 := write_note s.doc relative_path content
    let gov2 := record_governance_success s.gov
    (⟨vec1, doc2, gov2⟩, Except.ok ())

/-- Lower-cased character lists: `needle in haystack` (Python substring
test; the empty needle is in everything). -/
def contains_sub (needle : List Char) : List Char → Bool
  | [] => needle.isEmpty
  | c :: rest => needle.isPrefixOf (c :: rest) || contains_sub needle rest

/-- A vault file is visited by `folder_path.rglob("*.md")` when it lies
under the folder and has the `.md` suffix. -/
def in_folder (folder path : String) : Bool :=
  (folder ++ "/").isPrefixOf path && path.endsWith ".md"

/-- The matches `_keyword_scan` finds inside one configured folder, in
vault order: files whose lower-cased text contains the lower-cased query. -/
def folder_matches (d : DocStore) (query : String) (folder : String) :
    List Hit :=
  (d.notes.filter fun p =>
      in_folder folder p.1 &&
        contains_sub query.toLower.toList p.2.toLower.toList).map
    fun p => ⟨Source.keyword, some p.1, p.2, 1⟩

/-- The early-return accumulation of `_keyword_scan`: append each match,
returning as soon as `len(found) >= limit`. -/
def cap_found (limit : ℕ) : List Hit → List Hit → List Hit
  | found, [] => found
  | found, h :: rest =>
    let found1 := found ++ [h]
    if limit ≤ found1.length then found1 else cap_found limit found1 rest

/-- Embeds `_keyword_scan(query, limit)`: folder by folder, file by file, collect
case-insensitive substring matches (score 1.0) until `limit` is reached. -/
def keyword_scan (d : DocStore) (search_dirs : List String) (query : String)
    (limit : ℕ) : List Hit :=
  cap_found limit [] ((search_dirs.map (folder_matches d query)).flatten)

/-- Tier 1 of `read`: `if relative_path:` (skipped for `None` and for the
empty string), then `read_note`, kept only `if content:` (so a missing
note and an empty note both produce nothing). -/
def exact_tier (d : DocStore) (relative_path : Option String) : List Hit :=
  match relative_path with
  | none => []
  | some p =>
    if p = "" then []
    else
      match read_note d p with
      | none => []
      | some content =>
        if content = "" then [] else [⟨Source.exact, some p, content, 1⟩]

/-- Tier 3 of `read`: one `vs_query` hit mapped to a result dict
(`path` is `metadata.get("path")`, falling back to `doc_id` only when
metadata is not a dict — it always is here; `content or ""` keeps the
stored content). -/
def vector_tier (embed_fn : String → List ℚ) (sim : List ℚ → List ℚ → ℚ)
    (v : VectorStore) (query : String) (remaining : ℕ) : List Hit :=
  (vs_query embed_fn sim v query remaining).map fun h =>
    ⟨Source.vector, (h.metadata.find? fun p => p.1 == "path").map (·.2),
      h.content, h.score⟩

/-- Embeds `read(query, relative_path, max_results)`: exact lookup, then keyword
scan over the configured folders when slots remain (and `search_dirs` is
non-empty), then vector recall when slots remain and the store is
non-empty.  `max_results - len(results)` can go negative in Python only
when the guard already fails, so truncated `ℕ` subtraction agrees. -/
def bus_read (embed_fn : String → List ℚ) (sim : List ℚ → List ℚ → ℚ)
    (search_dirs : List String) (s : BusState) (query : String)
    (relative_path : Option String) (max_results : ℕ) : List Hit :=
  let results1 := exact_tier s.doc relative_path
  let results2 :=
    if results1.length < max_results ∧ search_dirs ≠ [] then
      results1 ++ keyword_scan s.doc search_dirs query
        (max_results - results1.length)
    else results1
  let remaining := max_results - results2.length
  if 0 < remaining ∧ 0 < vs_count s.vec then
    results2 ++ vector_tier embed_fn sim s.vec query remaining
  else results2

/-! ### Observation helpers and concrete fixtures used by the theorems -/

/-- The `(activation_count, success_count, failure_count)` triple the store
reports for a connection, all zero when the row does not exist. -/
def edge_counts (s : HebbianStore) (origin target : String) : ℕ × ℕ × ℕ :=
  match get_connection_stats s origin target with
  | some e => (e.activation_count, e.success_count, e.failure_count)
  | none => (0, 0, 0)

/-- Every row satisfies `activation_count == success_count + failure_count`. -/
def CountsOK (s : HebbianStore) : Prop :=
  ∀ e ∈ s.edges, e.activation_count = e.success_count + e.failure_count

/-- No row has a negative weight. -/
def WeightsNonneg (s : HebbianStore) : Prop :=
  ∀ e ∈ s.edges, 0 ≤ e.weight

instance : DecidablePred CountsOK := fun s => by
  unfold CountsOK; infer_instance

instance : DecidablePred WeightsNonneg := fun s => by
  unfold WeightsNonneg; infer_instance

/-- Every persisted score has all dimensions in `[0, 1]`. -/
def RegistryScoresInRange (r : AgentRegistry) : Prop :=
  ∀ p ∈ r.scores, ScoreInRange p.2

instance : DecidablePred RegistryScoresInRange := fun r => by
  unfold RegistryScoresInRange; infer_instance

/-- Concrete registry for the routing witness: agents `A` and `C`, both
capable of `x`, both on the default score. -/
def regW : AgentRegistry :=
  register_agent (register_agent ⟨[], []⟩ ⟨"A", ["x"]⟩ none) ⟨"C", ["x"]⟩ none

/-- One-agent registry with integer-valued in-range scores, for the
clamping witness (integer rationals evaluate inside `decide`). -/
def regV : AgentRegistry := ⟨[⟨"A", ["x"]⟩], [("A", ⟨1, 0, 1⟩)]⟩

/-- Concrete stand-ins for the injectable embedding function and the float
cosine similarity, used by the concrete-input theorems below. -/
def embed0 : String → List ℚ := fun _ => [1]

def sim0 : List ℚ → List ℚ → ℚ := fun _ _ => 0

/-! ## Helper lemmas -/

/-- Embeds `find?` through an update-matching `map`: when the update function
preserves the predicate, the first match of the mapped list is the updated
first match of the original list. -/
lemma find?_map_update {α : Type} (P : α → Bool) (upd : α → α)
    (hP : ∀ a, P (upd a) = P a) (l : List α) :
    (l.map fun a => if P a then upd a else a).find? P = (l.find? P).map upd := by
  induction l with
  | nil => rfl
  | cons x xs ih =>
    by_cases hx : P x = true
    · simp [List.find?_cons, hx, hP]
    · simp only [Bool.not_eq_true] at hx
      simp [List.find?_cons, hx, ih]

/-- An element of an update-matching `map` comes from an element of the
original list, through either the update or the identity. -/
lemma mem_map_update {α : Type} {P : α → Bool} {upd : α → α} {l : List α}
    {b : α} (hb : b ∈ l.map fun a => if P a then upd a else a) :
    ∃ a ∈ l, b = upd a ∨ b = a := by
  rcases List.mem_map.mp hb with ⟨a, ha, hba⟩
  refine ⟨a, ha, ?_⟩
  by_cases hPa : P a = true
  · simp only [hPa, if_pos] at hba
    exact Or.inl hba.symm
  · simp only [Bool.not_eq_true] at hPa
    simp only [hPa, Bool.false_eq_true, if_false] at hba
    exact Or.inr hba.symm

lemma edgeMatches_self (origin target : String) (w : ℚ) (a sc f : ℕ) :
    edgeMatches origin target ⟨origin, target, w, a, sc, f⟩ = true := by
  simp [edgeMatches]

/-! ## C6: strengthen/weaken update rules -/

lemma strengthen_find? (s : HebbianStore) (o t : String) :
    (strengthen_connection s o t).2.edges.find? (edgeMatches o t) =
      match s.edges.find? (edgeMatches o t) with
      | some e => some { e with weight := e.weight + 1,
                                activation_count := e.activation_count + 1,
                                success_count := e.success_count + 1 }
      | none => some ⟨o, t, get_weight s o t + 1, 1, 1, 0⟩ := by
  unfold strengthen_connection
  by_cases hany : s.edges.any (edgeMatches o t) = true
  · simp only [hany, if_pos]
    rw [find?_map_update (edgeMatches o t) _ (fun a => by simp [edgeMatches]) s.edges]
    rcases hfind : s.edges.find? (edgeMatches o t) with _ | e
    · rcases List.any_eq_true.mp hany with ⟨x, hx, hPx⟩
      rw [List.find?_eq_none] at hfind
      exact absurd hPx (hfind x hx)
    · simp
  · simp only [Bool.not_eq_true] at hany
    simp only [hany, Bool.false_eq_true, if_false]
    have hfind : s.edges.find? (edgeMatches o t) = none := by
      rw [List.find?_eq_none]
      intro x hx hPx
      exact absurd (List.any_eq_true.mpr ⟨x, hx, hPx⟩) (by simp [hany])
    rw [List.find?_append, hfind]
    simp [List.find?_cons, edgeMatches_self]

lemma weaken_find? (s : HebbianStore) (o t : String) :
    (weaken_connection s o t).2.edges.find? (edgeMatches o t) =
      match s.edges.find? (edgeMatches o t) with
      | some e => some { e with weight := max 0 (e.weight - 1),
                                activation_count := e.activation_count + 1,
                                failure_count := e.failure_count + 1 }
      | none => some ⟨o, t, max 0 (get_weight s o t - 1), 1, 0, 1⟩ := by
  unfold weaken_connection
  by_cases hany : s.edges.any (edgeMatches o t) = true
  · simp only [hany, if_pos]
    rw [find?_map_update (edgeMatches o t) _ (fun a => by simp [edgeMatches]) s.edges]
    rcases hfind : s.edges.find? (edgeMatches o t) with _ | e
    · rcases List.any_eq_true.mp hany with ⟨x, hx, hPx⟩
      rw [List.find?_eq_none] at hfind
      exact absurd hPx (hfind x hx)
    · simp
  · simp only [Bool.not_eq_true] at hany
    simp only [hany, Bool.false_eq_true, if_false]
    have hfind : s.edges.find? (edgeMatches o t) = none := by
      rw [List.find?_eq_none]
      intro x hx hPx
      exact absurd (List.any_eq_true.mpr ⟨x, hx, hPx⟩) (by simp [hany])
    rw [List.find?_append, hfind]
    simp [List.find?_cons, edgeMatches_self]

lemma get_weight_strengthen (s : HebbianStore) (o t : String) :
    get_weight (strengthen_connection s o t).2 o t = get_weight s o t + 1 := by
  unfold get_weight
  rw [strengthen_find?]
  rcases hfind : s.edges.find? (edgeMatches o t) with _ | e
  · simp [get_weight, hfind]
  · simp [get_weight, hfind]

lemma get_weight_weaken (s : HebbianStore) (o t : String) :
    get_weight (weaken_connection s o t).2 o t = max 0 (get_weight s o t - 1) := by
  unfold get_weight
  rw [weaken_find?]
  rcases hfind : s.edges.find? (edgeMatches o t) with _ | e
  · simp [get_weight, hfind]
  · simp [get_weight, hfind]

/-- C6.  On every store state and node pair, `strengthen_connection` returns
`old_weight + 1` and bumps the connection's activation and success counters
by exactly one; `weaken_connection` returns `max 0 (old_weight - 1)` and
bumps activation and failure by exactly one (both create the row on first
call, which the zero-defaulted counters cover); and from a connection of
weight 0, three strengthens followed by one weaken leave weight 2. -/
theorem hebbian_update_rules (s : HebbianStore) (o t : String) :
    (strengthen_connection s o t).1 = get_weight s o t + 1 ∧
    get_weight (strengthen_connection s o t).2 o t = get_weight s o t + 1 ∧
    edge_counts (strengthen_connection s o t).2 o t =
      ((edge_counts s o t).1 + 1, (edge_counts s o t).2.1 + 1,
        (edge_counts s o t).2.2) ∧
    (weaken_connection s o t).1 = max 0 (get_weight s o t - 1) ∧
    get_weight (weaken_connection s o t).2 o t = max 0 (get_weight s o t - 1) ∧
    edge_counts (weaken_connection s o t).2 o t =
      ((edge_counts s o t).1 + 1, (edge_counts s o t).2.1,
        (edge_counts s o t).2.2 + 1) ∧
    (get_weight s o t = 0 →
      get_weight (weaken_connection (strengthen_connection (strengthen_connection
        (strengthen_connection s o t).2 o t).2 o t).2 o t).2 o t = 2) := by
  refine ⟨rfl, get_weight_strengthen s o t, ?_, rfl, get_weight_weaken s o t, ?_, ?_⟩
  · unfold edge_counts get_connection_stats
    rw [strengthen_find?]
    rcases hfind : s.edges.find? (edgeMatches o t) with _ | e <;> simp
  · unfold edge_counts get_connection_stats
    rw [weaken_find?]
    rcases hfind : s.edges.find? (edgeMatches o t) with _ | e <;> simp
  · intro h0
    rw [get_weight_weaken, get_weight_strengthen, get_weight_strengthen,
      get_weight_strengthen, h0]
    norm_num

/-- Witness for `hebbian_update_rules` at the empty store: the fresh-edge
hypothesis of the scenario conjunct holds and the scenario yields weight 2. -/
theorem hebbian_update_rules_witness :
    get_weight ⟨[]⟩ "A" "t1" = 0 ∧
    get_weight (weaken_connection (strengthen_connection (strengthen_connection
      (strengthen_connection ⟨[]⟩ "A" "t1").2 "A" "t1").2 "A" "t1").2 "A" "t1").2
      "A" "t1" = 2 :=
  ⟨rfl, (hebbian_update_rules ⟨[]⟩ "A" "t1").2.2.2.2.2.2 rfl⟩

/-! ## C7: edge invariants -/

lemma mem_strengthen {s : HebbianStore} {o t : String} {e : Edge}
    (he : e ∈ (strengthen_connection s o t).2.edges) :
    (∃ a ∈ s.edges,
        e = { a with weight := a.weight + 1,
                     activation_count := a.activation_count + 1,
                     success_count := a.success_count + 1 } ∨ e = a) ∨
      e = ⟨o, t, get_weight s o t + 1, 1, 1, 0⟩ := by
  unfold strengthen_connection at he
  by_cases hany : s.edges.any (edgeMatches o t) = true
  · simp only [hany, if_pos] at he
    exact Or.inl (mem_map_update he)
  · simp only [Bool.not_eq_true] at hany
    simp only [hany, Bool.false_eq_true, if_false, List.mem_append,
      List.mem_singleton] at he
    rcases he with he | he
    · exact Or.inl ⟨e, he, Or.inr rfl⟩
    · exact Or.inr he

lemma mem_weaken {s : HebbianStore} {o t : String} {e : Edge}
    (he : e ∈ (weaken_connection s o t).2.edges) :
    (∃ a ∈ s.edges,
        e = { a with weight := max 0 (a.weight - 1),
                     activation_count := a.activation_count + 1,
                     failure_count := a.failure_count + 1 } ∨ e = a) ∨
      e = ⟨o, t, max 0 (get_weight s o t - 1), 1, 0, 1⟩ := by
  unfold weaken_connection at he
  by_cases hany : s.edges.any (edgeMatches o t) = true
  · simp only [hany, if_pos] at he
    exact Or.inl (mem_map_update he)
  · simp only [Bool.not_eq_true] at hany
    simp only [hany, Bool.false_eq_true, if_false, List.mem_append,
      List.mem_singleton] at he
    rcases he with he | he
    · exact Or.inl ⟨e, he, Or.inr rfl⟩
    · exact Or.inr he

lemma get_weight_nonneg {s : HebbianStore} (hw : WeightsNonneg s)
    (o t : String) : 0 ≤ get_weight s o t := by
  unfold get_weight
  rcases hfind : s.edges.find? (edgeMatches o t) with _ | e
  · simp
  · exact hw e (List.mem_of_find?_eq_some hfind)

/-- C7.  Starting from any store whose rows satisfy the counter identity
and have non-negative weights, both invariants still hold for every edge
after a `strengthen_connection` and after a `weaken_connection`; moreover
`weaken_connection` on a weight-0 connection returns weight 0, and its
return value is never negative. -/
theorem hebbian_edge_invariants (s : HebbianStore) (o t : String)
    (hc : CountsOK s) (hw : WeightsNonneg s) :
    CountsOK (strengthen_connection s o t).2 ∧
    WeightsNonneg (strengthen_connection s o t).2 ∧
    CountsOK (weaken_connection s o t).2 ∧
    WeightsNonneg (weaken_connection s o t).2 ∧
    (get_weight s o t = 0 → (weaken_connection s o t).1 = 0) ∧
    0 ≤ (weaken_connection s o t).1 := by
  refine ⟨?_, ?_, ?_, ?_, ?_, le_max_left 0 _⟩
  · intro e he
    rcases mem_strengthen he with ⟨a, ha, heq | heq⟩ | heq <;> rw [heq]
    · have := hc a ha
      simp only
      omega
    · exact hc a ha
    · rfl
  · intro e he
    rcases mem_strengthen he with ⟨a, ha, heq | heq⟩ | heq <;> rw [heq]
    · have := hw a ha
      simp only
      linarith
    · exact hw a ha
    · simp only
      have := get_weight_nonneg hw o t
      linarith
  · intro e he
    rcases mem_weaken he with ⟨a, ha, heq | heq⟩ | heq <;> rw [heq]
    · have := hc a ha
      simp only
      omega
    · exact hc a ha
    · rfl
  · intro e he
    rcases mem_weaken he with ⟨a, ha, heq | heq⟩ | heq <;> rw [heq]
    · exact le_max_left 0 _
    · exact hw a ha
    · exact le_max_left 0 _
  · intro h0
    unfold weaken_connection
    rw [h0]
    norm_num

/-- Witness for `hebbian_edge_invariants` at a concrete two-row store
satisfying both invariants and a weight-0 row for the scenario conjunct. -/
theorem hebbian_edge_invariants_witness :
    CountsOK ⟨[⟨"A", "t1", 0, 2, 1, 1⟩, ⟨"A", "t2", 3, 3, 3, 0⟩]⟩ ∧
    WeightsNonneg ⟨[⟨"A", "t1", 0, 2, 1, 1⟩, ⟨"A", "t2", 3, 3, 3, 0⟩]⟩ ∧
    (weaken_connection ⟨[⟨"A", "t1", 0, 2, 1, 1⟩, ⟨"A", "t2", 3, 3, 3, 0⟩]⟩
      "A" "t1").1 = 0 :=
  ⟨by decide, by decide,
    (hebbian_edge_invariants ⟨[⟨"A", "t1", 0, 2, 1, 1⟩, ⟨"A", "t2", 3, 3, 3, 0⟩]⟩
      "A" "t1" (by decide) (by decide)).2.2.2.2.1 (by decide)⟩

/-! ## C8: prune -/

/-- C8.  `prune_weak_connections` keeps exactly the rows with weight above
the threshold, in order and unchanged (a sublist of the original rows),
and returns the number of rows whose weight was at or below the threshold;
with threshold 0 on a store of non-negative weights it removes exactly the
weight-0 rows. -/
theorem prune_exact (s : HebbianStore) (threshold : ℚ) :
    (∀ e, e ∈ (prune_weak_connections s threshold).2.edges ↔
        e ∈ s.edges ∧ threshold < e.weight) ∧
    (prune_weak_connections s threshold).2.edges.Sublist s.edges ∧
    (prune_weak_connections s threshold).1 =
      (s.edges.filter fun e => decide (e.weight ≤ threshold)).length ∧
    (WeightsNonneg s → ∀ e ∈ s.edges,
      (e ∈ (prune_weak_connections s 0).2.edges ↔ e.weight ≠ 0)) := by
  refine ⟨?_, List.filter_sublist s.edges, ?_, ?_⟩
  · intro e
    rw [prune_weak_connections, List.mem_filter]
    simp [not_le]
  · have h : s.edges.length =
        (s.edges.filter fun e => decide (e.weight ≤ threshold)).length +
          (s.edges.filter fun e => !(decide (e.weight ≤ threshold))).length :=
      List.length_eq_length_filter_add _
    rw [prune_weak_connections]
    simp only
    omega
  · intro hw e he
    rw [prune_weak_connections, List.mem_filter]
    have := hw e he
    constructor
    · rintro ⟨-, hgt⟩
      intro h0
      rw [h0] at hgt
      simp at hgt
    · intro hne
      refine ⟨he, ?_⟩
      simp only [Bool.not_eq_true', decide_eq_false_iff_not, not_le]
      exact lt_of_le_of_ne this (Ne.symm hne)

/-- Witness for `prune_exact` at threshold 0 on a store with one weight-0
row and one positive row: only the weight-0 row is removed. -/
theorem prune_exact_witness :
    WeightsNonneg ⟨[⟨"a", "b", 0, 1, 1, 0⟩, ⟨"a", "c", 2, 2, 2, 0⟩]⟩ ∧
    ((⟨"a", "c", 2, 2, 2, 0⟩ : Edge) ∈
        (prune_weak_connections ⟨[⟨"a", "b", 0, 1, 1, 0⟩, ⟨"a", "c", 2, 2, 2, 0⟩]⟩
          0).2.edges ↔ (2 : ℚ) ≠ 0) :=
  ⟨by decide,
    (prune_exact ⟨[⟨"a", "b", 0, 1, 1, 0⟩, ⟨"a", "c", 2, 2, 2, 0⟩]⟩ 0).2.2.2
      (by decide) ⟨"a", "c", 2, 2, 2, 0⟩ (by simp)⟩

/-! ## C3: governance failure streak -/

lemma record_failure_streak (m : GovernanceMonitor) (payload : String) :
    (record_failure m payload).2.failure_streak = m.failure_streak + 1 ∧
    (record_failure m payload).2.alert_threshold = m.alert_threshold := by
  by_cases h : m.alert_threshold ≤ m.failure_streak + 1 <;>
    simp [record_failure, h]

lemma record_failures_streak (m : GovernanceMonitor) (n : ℕ) :
    (record_failures m n).2.failure_streak = m.failure_streak + n ∧
    (record_failures m n).2.alert_threshold = m.alert_threshold := by
  induction n with
  | zero => exact ⟨rfl, rfl⟩
  | succ k ih =>
    have h := record_failure_streak (record_failures m k).2 ""
    unfold record_failures
    rw [h.1, h.2, ih.1, ih.2]
    omega

lemma record_failure_result (m : GovernanceMonitor) (payload : String) :
    (record_failure m payload).1 = true ↔
      m.alert_threshold ≤ m.failure_streak + 1 := by
  by_cases h : m.alert_threshold ≤ m.failure_streak + 1 <;>
    simp [record_failure, h]

/-- C3.  From a monitor with failure streak 0 and threshold `T ≥ 1`, the
`N`-th of `N ≥ 1` consecutive `record_failure` calls returns `true` iff
`N ≥ T`; `record_success` resets the streak to 0 on any state and is a
strict no-op when the streak is already 0; `get_failure_streak` and
`get_recent_events` return the state unchanged. -/
theorem governance_streak (m : GovernanceMonitor) (N : ℕ)
    (h0 : m.failure_streak = 0) (hT : 1 ≤ m.alert_threshold) (hN : 1 ≤ N) :
    ((record_failures m N).1 = true ↔ m.alert_threshold ≤ N) ∧
    (∀ m' : GovernanceMonitor, (record_success m').failure_streak = 0) ∧
    (∀ m' : GovernanceMonitor, m'.failure_streak = 0 → record_success m' = m') ∧
    (∀ m' : GovernanceMonitor, (get_failure_streak m').2 = m') ∧
    (∀ (m' : GovernanceMonitor) (limit : ℕ),
      (get_recent_events m' limit).2 = m') := by
  refine ⟨?_, fun m' => rfl, ?_, fun m' => rfl, fun m' limit => rfl⟩
  · obtain ⟨k, rfl⟩ : ∃ k, N = k + 1 := ⟨N - 1, by omega⟩
    have hs := record_failures_streak m k
    show (record_failure (record_failures m k).2 "").1 = true ↔ _
    rw [record_failure_result, hs.1, hs.2, h0]
    omega
  · intro m' hm'
    unfold record_success
    cases m'
    simp_all

/-- Witness for `governance_streak` at threshold 3: the third consecutive
failure reports `true` (3 ≥ 3). -/
theorem governance_streak_witness :
    (⟨3, 0, []⟩ : GovernanceMonitor).failure_streak = 0 ∧
    1 ≤ (⟨3, 0, []⟩ : GovernanceMonitor).alert_threshold ∧ 1 ≤ 3 ∧
    ((record_failures ⟨3, 0, []⟩ 3).1 = true ↔
      (⟨3, 0, []⟩ : GovernanceMonitor).alert_threshold ≤ 3) :=
  ⟨rfl, by decide, by decide,
    (governance_streak ⟨3, 0, []⟩ 3 rfl (by decide) (by decide)).1⟩

/-! ## C4: routing contract -/

/-- The left fold of Python `max` selects an element of the list that is
maximal for the key and is strictly greater than everything before it:
the first maximal element. -/
lemma pyMax_foldl_spec {α : Type} (key : α → ℚ) (acc : α) (xs : List α) :
    ∃ l1 l2,
      acc :: xs = l1 ++ (xs.foldl (pyStep key) acc) :: l2 ∧
      (∀ z ∈ acc :: xs, key z ≤ key (xs.foldl (pyStep key) acc)) ∧
      (∀ z ∈ l1, key z < key (xs.foldl (pyStep key) acc)) := by
  induction xs generalizing acc with
  | nil =>
    refine ⟨[], [], rfl, ?_, by simp⟩
    intro z hz
    rw [List.mem_singleton] at hz
    rw [hz]
    exact le_refl _
  | cons y ys ih =>
    simp only [List.foldl_cons]
    by_cases h : key acc < key y
    · have hstep : pyStep key acc y = y := if_pos h
      rw [hstep]
      obtain ⟨l1, l2, hd, hmax, hstr⟩ := ih y
      have hyb : key y ≤ key (ys.foldl (pyStep key) y) := hmax y (by simp)
      refine ⟨acc :: l1, l2, ?_, ?_, ?_⟩
      · rw [List.cons_append, ← hd]
      · intro z hz
        rcases List.mem_cons.mp hz with hz1 | hz'
        · rw [hz1]
          exact le_of_lt (lt_of_lt_of_le h hyb)
        · exact hmax z hz'
      · intro z hz
        rcases List.mem_cons.mp hz with hz1 | hz'
        · rw [hz1]
          exact lt_of_lt_of_le h hyb
        · exact hstr z hz'
    · have hstep : pyStep key acc y = acc := if_neg h
      rw [hstep]
      push_neg at h
      obtain ⟨l1, l2, hd, hmax, hstr⟩ := ih acc
      cases l1 with
      | nil =>
        rw [List.nil_append] at hd
        have hacc : acc = ys.foldl (pyStep key) acc := (List.cons.inj hd).1
        have hys : ys = l2 := (List.cons.inj hd).2
        refine ⟨[], y :: l2, ?_, ?_, by simp⟩
        · rw [List.nil_append, ← hacc, hys]
        · intro z hz
          rcases List.mem_cons.mp hz with hz1 | hz'
          · rw [hz1]
            exact le_of_eq (congrArg key hacc)
          · rcases List.mem_cons.mp hz' with hz2 | hz''
            · rw [hz2]
              exact le_trans h (le_of_eq (congrArg key hacc))
            · exact hmax z (List.mem_cons_of_mem acc hz'')
      | cons w l1' =>
        rw [List.cons_append] at hd
        have hacc : acc = w := (List.cons.inj hd).1
        have hys : ys = l1' ++ (ys.foldl (pyStep key) acc) :: l2 :=
          (List.cons.inj hd).2
        have haccb : key acc < key (ys.foldl (pyStep key) acc) := by
          have h2 := hstr w (by simp)
          rw [← hacc] at h2
          exact h2
        refine ⟨acc :: y :: l1', l2, ?_, ?_, ?_⟩
        · rw [List.cons_append, List.cons_append, ← hys]
        · intro z hz
          rcases List.mem_cons.mp hz with hz1 | hz'
          · rw [hz1]
            exact le_of_lt haccb
          · rcases List.mem_cons.mp hz' with hz2 | hz''
            · rw [hz2]
              exact le_trans h (le_of_lt haccb)
            · exact hmax z (List.mem_cons_of_mem acc hz'')
        · intro z hz
          rcases List.mem_cons.mp hz with hz1 | hz'
          · rw [hz1]
            exact haccb
          · rcases List.mem_cons.mp hz' with hz2 | hz''
            · rw [hz2]
              exact lt_of_le_of_lt h haccb
            · exact hstr z (List.mem_cons_of_mem w hz'')

/-- C4.  `route_task` fails with the missing-capability error when the task
carries no capability or an empty one; fails with the no-capable-agent
error when no registered agent declares the capability; and otherwise
returns a capable agent whose composite score is maximal and that precedes
every other maximal capable agent in registration order.  The hypothesis
restricts to registries where every registered agent has a score entry
(elsewhere the source raises `KeyError` out of `self.scores[...]`). -/
theorem route_task_contract (r : AgentRegistry) (cap? : Option String)
    (hscores : ∀ a ∈ r.agents, (scoreOf r a.name).isSome = true) :
    ((cap? = none ∨ cap? = some "") →
      route_task r cap? = Except.error RouteError.missingCapability) ∧
    (∀ c, cap? = some c → c ≠ "" → capable_agents r c = [] →
      route_task r cap? = Except.error RouteError.noCapableAgent) ∧
    (∀ c, cap? = some c → c ≠ "" → capable_agents r c ≠ [] →
      ∃ best l1 l2,
        capable_agents r c = l1 ++ best :: l2 ∧
        route_task r cap? = Except.ok best ∧
        (∀ b ∈ capable_agents r c, compositeOf r b ≤ compositeOf r best) ∧
        (∀ b ∈ l1, compositeOf r b < compositeOf r best)) := by
  refine ⟨?_, ?_, ?_⟩
  · rintro (rfl | rfl)
    · rfl
    · simp [route_task]
  · rintro c rfl hne hcap
    simp [route_task, hne, hcap, pyMax]
  · rintro c rfl hne hcap
    rcases hxs : capable_agents r c with _ | ⟨x, xs⟩
    · exact absurd hxs hcap
    · obtain ⟨l1, l2, hd, hmax, hstr⟩ := pyMax_foldl_spec (compositeOf r) x xs
      refine ⟨xs.foldl (pyStep (compositeOf r)) x, l1, l2, hd, ?_, hmax, hstr⟩
      simp [route_task, hne, hxs, pyMax]

/-- Witness for `route_task_contract`: on the two-agent registry the
winning branch produces a first-registered maximal agent. -/
theorem route_task_contract_witness :
    (∀ a ∈ regW.agents, (scoreOf regW a.name).isSome = true) ∧
    (∃ best l1 l2,
      capable_agents regW "x" = l1 ++ best :: l2 ∧
      route_task regW (some "x") = Except.ok best ∧
      (∀ b ∈ capable_agents regW "x",
        compositeOf regW b ≤ compositeOf regW best) ∧
      (∀ b ∈ l1, compositeOf regW b < compositeOf regW best)) :=
  ⟨by decide,
    (route_task_contract regW (some "x") (by decide)).2.2 "x" rfl
      (by decide) (by decide)⟩

/-! ## C5: score clamping and composite bound -/

lemma clamp_mem (x : ℚ) : 0 ≤ max 0 (min 1 x) ∧ max 0 (min 1 x) ≤ 1 :=
  ⟨le_max_left 0 _, max_le (by norm_num) (min_le_left 1 x)⟩

lemma setDim_range {s : AgentScore} {v : ℚ} (hs : ScoreInRange s)
    (h0 : 0 ≤ v) (h1 : v ≤ 1) (d : Dim) : ScoreInRange (setDim s d v) := by
  obtain ⟨a0, a1, b0, b1, c0, c1⟩ := hs
  cases d <;> exact ⟨by simpa [setDim], by simpa [setDim], by simpa [setDim],
    by simpa [setDim], by simpa [setDim], by simpa [setDim]⟩

lemma composite_bound {s : AgentScore} (hs : ScoreInRange s) :
    0 ≤ composite_score s ∧ composite_score s ≤ 1 := by
  obtain ⟨a0, a1, b0, b1, c0, c1⟩ := hs
  unfold composite_score
  constructor <;> nlinarith

lemma update_score_range (r : AgentRegistry) (hr : RegistryScoresInRange r)
    (id : String) (d : Dim) (δ : ℚ) :
    RegistryScoresInRange (update_score r id d δ) := by
  unfold update_score
  rcases hso : scoreOf r id with _ | s
  · exact hr
  · intro p hp
    simp only at hp
    rcases mem_map_update hp with ⟨q, hq, hpq | hpq⟩
    · rw [hpq]
      exact setDim_range (hr q hq)
        (clamp_mem (getDim s d + δ)).1 (clamp_mem (getDim s d + δ)).2 d
    · rw [hpq]
      exact hr q hq

lemma update_scores_range (r : AgentRegistry) (hr : RegistryScoresInRange r)
    (calls : List (String × Dim × ℚ)) :
    RegistryScoresInRange (update_scores r calls) := by
  induction calls generalizing r with
  | nil => exact hr
  | cons c cs ih =>
    exact ih (update_score r c.1 c.2.1 c.2.2)
      (update_score_range r hr c.1 c.2.1 c.2.2)

lemma scoreOf_update_score (r : AgentRegistry) (id : String) (d : Dim)
    (δ : ℚ) (q : String × AgentScore)
    (hfind : r.scores.find? (fun p => p.1 == id) = some q) :
    scoreOf (update_score r id d δ) id =
      some (setDim q.2 d (max 0 (min 1 (getDim q.2 d + δ)))) := by
  have hso : scoreOf r id = some q.2 := by
    unfold scoreOf
    rw [hfind]
    rfl
  unfold update_score
  rw [hso]
  show scoreOf
      { agents := r.agents,
        scores := r.scores.map fun p =>
          if p.1 == id then
            (p.1, setDim p.2 d (max 0 (min 1 (getDim q.2 d + δ))))
          else p } id = _
  unfold scoreOf
  rw [find?_map_update (fun p => p.1 == id)
    (fun p => (p.1, setDim p.2 d (max 0 (min 1 (getDim q.2 d + δ)))))
    (fun a => rfl) r.scores, hfind]
  rfl

/-- C5.  From a registry whose persisted scores all lie in `[0, 1]` (as the
default `(0.5, 0.5, 0.5)` does): after any sequence of `update_score`
calls every dimension is still in `[0, 1]` and every composite score lies
in `[0, 1]`; and a single `update_score` on a known agent sets exactly the
named dimension to `max 0 (min 1 (old + delta))`, a value itself in
`[0, 1]`. -/
theorem update_score_clamping (r : AgentRegistry)
    (hr : RegistryScoresInRange r) :
    (∀ calls : List (String × Dim × ℚ),
      RegistryScoresInRange (update_scores r calls) ∧
      ∀ p ∈ (update_scores r calls).scores,
        0 ≤ composite_score p.2 ∧ composite_score p.2 ≤ 1) ∧
    (∀ (id : String) (d : Dim) (δ : ℚ) (s : AgentScore),
      scoreOf r id = some s →
      scoreOf (update_score r id d δ) id =
        some (setDim s d (max 0 (min 1 (getDim s d + δ)))) ∧
      0 ≤ max 0 (min 1 (getDim s d + δ)) ∧
      max 0 (min 1 (getDim s d + δ)) ≤ 1) := by
  constructor
  · intro calls
    have hrange := update_scores_range r hr calls
    exact ⟨hrange, fun p hp => composite_bound (hrange p hp)⟩
  · intro id d δ s hs
    refine ⟨?_, clamp_mem (getDim s d + δ)⟩
    unfold scoreOf at hs
    rcases hfind : r.scores.find? (fun p => p.1 == id) with _ | q
    · rw [hfind] at hs
      exact absurd hs (by simp)
    · rw [hfind] at hs
      have hq2 : q.2 = s := by simpa using hs
      rw [← hq2]
      exact scoreOf_update_score r id d δ q hfind

/-- Witness for `update_score_clamping`: a `+2` delta on alignment of a
known agent is clamped into `[0, 1]`. -/
theorem update_score_clamping_witness :
    RegistryScoresInRange regV ∧
    (scoreOf (update_score regV "A" Dim.alignment 2) "A" =
        some (setDim ⟨1, 0, 1⟩ Dim.alignment
          (max 0 (min 1 (getDim ⟨1, 0, 1⟩ Dim.alignment + 2)))) ∧
      0 ≤ max 0 (min 1 (getDim ⟨1, 0, 1⟩ Dim.alignment + 2)) ∧
      max 0 (min 1 (getDim ⟨1, 0, 1⟩ Dim.alignment + 2)) ≤ 1) :=
  ⟨by decide,
    (update_score_clamping regV (by decide)).2 "A" Dim.alignment 2
      ⟨1, 0, 1⟩ rfl⟩

/-! ## C1: write-through rollback -/

lemma vs_delete_find? (v : VectorStore) (k : String) :
    (vs_delete v k).records.find? (fun rec => rec.doc_id == k) = none := by
  rw [List.find?_eq_none]
  intro x hx
  have hmem := List.mem_filter.mp hx
  simpa using hmem.2

lemma vs_delete_upsert (embed_fn : String → List ℚ) (v : VectorStore)
    (k c : String) (m : List (String × String))
    (habs : ∀ rec ∈ v.records, rec.doc_id ≠ k) :
    vs_delete (vs_upsert embed_fn v k c m) k = v := by
  have hany : v.records.any (fun rec => rec.doc_id == k) = false := by
    rw [List.any_eq_false]
    intro rec hrec
    simpa using habs rec hrec
  unfold vs_upsert vs_delete
  rw [hany]
  simp only [Bool.false_eq_true, if_false, List.filter_append]
  rw [List.filter_eq_self.mpr fun rec hrec => by simpa using habs rec hrec]
  simp

/-- C1.  With the governance monitor wired and `embed=True`: when the
Document Store write raises, `write_note_with_embedding` re-raises the
original exception, the Semantic Index no longer contains the key (and is
exactly its pre-call state when the key was fresh, so its count is
unchanged), the Document Store is untouched, and the monitor records one
more failure; when both writes succeed the call returns success and the
monitor's failure streak is reset to 0. -/
theorem write_through_rollback (embed_fn : String → List ℚ) (s : BusState)
    (g : GovernanceMonitor) (hg : s.gov = some g)
    (relative_path content exc : String)
    (metadata : List (String × String)) :
    (write_note_with_embedding embed_fn (some exc) s relative_path content
        metadata true).2 = Except.error exc ∧
    (write_note_with_embedding embed_fn (some exc) s relative_path content
        metadata true).1.vec.records.find?
      (fun rec => rec.doc_id == normalize_doc_id relative_path) = none ∧
    ((∀ rec ∈ s.vec.records, rec.doc_id ≠ normalize_doc_id relative_path) →
      (write_note_with_embedding embed_fn (some exc) s relative_path content
          metadata true).1.vec = s.vec) ∧
    (write_note_with_embedding embed_fn (some exc) s relative_path content
        metadata true).1.doc = s.doc ∧
    (∃ g', (write_note_with_embedding embed_fn (some exc) s relative_path
        content metadata true).1.gov = some g' ∧
      g'.failure_streak = g.failure_streak + 1) ∧
    (write_note_with_embedding embed_fn none s relative_path content
        metadata true).2 = Except.ok () ∧
    (∃ g', (write_note_with_embedding embed_fn none s relative_path content
        metadata true).1.gov = some g' ∧ g'.failure_streak = 0) := by
  refine ⟨rfl, ?_, ?_, rfl, ?_, rfl, ?_⟩
  · exact vs_delete_find? _ _
  · intro habs
    exact vs_delete_upsert embed_fn s.vec (normalize_doc_id relative_path)
      content (dict_update [("path", relative_path)] metadata) habs
  · show ∃ g', record_governance_failure s.gov _ _ _ = some g' ∧ _
    rw [hg]
    unfold record_governance_failure
    exact ⟨_, rfl, (record_failure_streak g _).1⟩
  · show ∃ g', record_governance_success s.gov = some g' ∧ _
    rw [hg]
    exact ⟨record_success g, rfl, rfl⟩

/-- Witness for `write_through_rollback` at a concrete empty state with a
threshold-3 monitor: the injected document failure is re-raised and the
index does not contain the key. -/
theorem write_through_rollback_witness :
    (⟨⟨[]⟩, ⟨[]⟩, some ⟨3, 0, []⟩⟩ : BusState).gov = some ⟨3, 0, []⟩ ∧
    (write_note_with_embedding embed0 (some "boom")
        ⟨⟨[]⟩, ⟨[]⟩, some ⟨3, 0, []⟩⟩ "a b" "x" [] true).2 =
      Except.error "boom" ∧
    (write_note_with_embedding embed0 (some "boom")
        ⟨⟨[]⟩, ⟨[]⟩, some ⟨3, 0, []⟩⟩ "a b" "x" [] true).1.vec.records.find?
      (fun rec => rec.doc_id == normalize_doc_id "a b") = none :=
  ⟨rfl,
    (write_through_rollback embed0 ⟨⟨[]⟩, ⟨[]⟩, some ⟨3, 0, []⟩⟩ ⟨3, 0, []⟩
      rfl "a b" "x" "boom" []).1,
    (write_through_rollback embed0 ⟨⟨[]⟩, ⟨[]⟩, some ⟨3, 0, []⟩⟩ ⟨3, 0, []⟩
      rfl "a b" "x" "boom" []).2.1⟩

/-! ## Read hierarchy lemmas (shared by C2, C9, C10) -/

lemma exact_tier_length (d : DocStore) (rp : Option String) :
    (exact_tier d rp).length ≤ 1 := by
  unfold exact_tier
  rcases rp with _ | p
  · simp
  · by_cases hp : p = ""
    · simp [hp]
    · simp only [hp, if_neg, if_false]
      rcases read_note d p with _ | content
      · simp
      · by_cases hc : content = "" <;> simp [hc]

lemma cap_found_length (limit : ℕ) (l found : List Hit)
    (hf : found.length < limit) : (cap_found limit found l).length ≤ limit := by
  induction l generalizing found with
  | nil =>
    unfold cap_found
    omega
  | cons h rest ih =>
    unfold cap_found
    simp only
    by_cases hlim : limit ≤ (found ++ [h]).length
    · rw [if_pos hlim]
      rw [List.length_append] at hlim ⊢
      simp only [List.length_singleton] at hlim ⊢
      omega
    · rw [if_neg hlim]
      exact ih (found ++ [h]) (by rw [List.length_append] at hlim ⊢; omega)

lemma cap_found_subset (limit : ℕ) (l found : List Hit) (h : Hit)
    (hmem : h ∈ cap_found limit found l) : h ∈ found ∨ h ∈ l := by
  induction l generalizing found with
  | nil =>
    unfold cap_found at hmem
    exact Or.inl hmem
  | cons x rest ih =>
    unfold cap_found at hmem
    simp only at hmem
    by_cases hlim : limit ≤ (found ++ [x]).length
    · rw [if_pos hlim] at hmem
      rcases List.mem_append.mp hmem with hf | hx
      · exact Or.inl hf
      · exact Or.inr (by simpa using Or.inl (List.mem_singleton.mp hx))
    · rw [if_neg hlim] at hmem
      rcases ih (found ++ [x]) hmem with hf | hr
      · rcases List.mem_append.mp hf with hf' | hx
        · exact Or.inl hf'
        · exact Or.inr (by simpa using Or.inl (List.mem_singleton.mp hx))
      · exact Or.inr (List.mem_cons_of_mem x hr)

lemma keyword_scan_length (d : DocStore) (dirs : List String) (q : String)
    (limit : ℕ) (hl : 1 ≤ limit) :
    (keyword_scan d dirs q limit).length ≤ limit :=
  cap_found_length limit _ [] (by simpa using hl)

lemma keyword_scan_sources (d : DocStore) (dirs : List String) (q : String)
    (limit : ℕ) (h : Hit) (hmem : h ∈ keyword_scan d dirs q limit) :
    h.source = Source.keyword := by
  rcases cap_found_subset limit _ [] h hmem with hf | hl
  · exact absurd hf (List.not_mem_nil h)
  · rcases List.mem_flatten.mp hl with ⟨part, hpart, hpmem⟩
    rcases List.mem_map.mp hpart with ⟨folder, _, hfold⟩
    rw [← hfold] at hpmem
    rcases List.mem_map.mp hpmem with ⟨p, _, hph⟩
    rw [← hph]

lemma vector_tier_length (embed_fn : String → List ℚ)
    (sim : List ℚ → List ℚ → ℚ) (v : VectorStore) (q : String)
    (remaining : ℕ) :
    (vector_tier embed_fn sim v q remaining).length ≤ remaining := by
  unfold vector_tier vs_query
  rw [List.length_map, List.length_take]
  exact min_le_left _ _

lemma vector_tier_sources (embed_fn : String → List ℚ)
    (sim : List ℚ → List ℚ → ℚ) (v : VectorStore) (q : String)
    (remaining : ℕ) (h : Hit)
    (hmem : h ∈ vector_tier embed_fn sim v q remaining) :
    h.source = Source.vector := by
  rcases List.mem_map.mp hmem with ⟨x, _, hxh⟩
  rw [← hxh]

/-- Structure of one `read` call: the output is the exact-tier hits,
followed by keyword hits, followed by vector hits, each later tier running
only when the earlier ones left room (and the vector tier only on a
non-empty index), and each capped by the remaining slots. -/
lemma bus_read_spec (embed_fn : String → List ℚ)
    (sim : List ℚ → List ℚ → ℚ) (dirs : List String) (s : BusState)
    (query : String) (rp : Option String) (n : ℕ) :
    ∃ k v,
      bus_read embed_fn sim dirs s query rp n =
        exact_tier s.doc rp ++ k ++ v ∧
      (∀ h ∈ k, h.source = Source.keyword) ∧
      (∀ h ∈ v, h.source = Source.vector) ∧
      (dirs = [] → k = []) ∧
      (n ≤ (exact_tier s.doc rp).length → k = []) ∧
      k.length ≤ n - (exact_tier s.doc rp).length ∧
      (vs_count s.vec = 0 → v = []) ∧
      (n ≤ (exact_tier s.doc rp).length + k.length → v = []) ∧
      v.length ≤ n - ((exact_tier s.doc rp).length + k.length) := by
  unfold bus_read
  dsimp only
  by_cases h1 : (exact_tier s.doc rp).length < n ∧ dirs ≠ []
  · rw [if_pos h1]
    set e := exact_tier s.doc rp with he
    set kw := keyword_scan s.doc dirs query (n - e.length) with hkw
    have hkwlen : kw.length ≤ n - e.length :=
      keyword_scan_length s.doc dirs query (n - e.length) (by omega)
    by_cases h2 : 0 < n - (e ++ kw).length ∧ 0 < vs_count s.vec
    · rw [if_pos h2]
      refine ⟨kw, vector_tier embed_fn sim s.vec query (n - (e ++ kw).length),
        (List.append_assoc e kw _).symm ▸ rfl, ?_, ?_, ?_, ?_, hkwlen, ?_, ?_, ?_⟩
      · exact fun h hm => keyword_scan_sources _ _ _ _ h hm
      · exact fun h hm => vector_tier_sources _ _ _ _ _ h hm
      · intro hd; exact absurd hd h1.2
      · intro hle; omega
      · intro hcnt; omega
      · intro hfull
        rw [List.length_append] at h2
        omega
      · have := vector_tier_length embed_fn sim s.vec query (n - (e ++ kw).length)
        rw [List.length_append] at this ⊢
        exact this
    · rw [if_neg h2]
      refine ⟨kw, [], by rw [List.append_nil], ?_, by simp, ?_, ?_, hkwlen,
        fun _ => rfl, fun _ => rfl, by simp⟩
      · exact fun h hm => keyword_scan_sources _ _ _ _ h hm
      · intro hd; exact absurd hd h1.2
      · intro hle; omega
  · rw [if_neg h1]
    set e := exact_tier s.doc rp with he
    by_cases h2 : 0 < n - e.length ∧ 0 < vs_count s.vec
    · rw [if_pos h2]
      refine ⟨[], vector_tier embed_fn sim s.vec query (n - e.length),
        by rw [List.append_nil], by simp, ?_, fun _ => rfl, fun _ => rfl,
        by simp, ?_, ?_, ?_⟩
      · exact fun h hm => vector_tier_sources _ _ _ _ _ h hm
      · intro hcnt; omega
      · intro hfull
        simp only [List.length_nil, Nat.add_zero] at hfull
        omega
      · simpa using vector_tier_length embed_fn sim s.vec query (n - e.length)
    · rw [if_neg h2]
      exact ⟨[], [], by simp, by simp, by simp, fun _ => rfl, fun _ => rfl,
        by simp, fun _ => rfl, fun _ => rfl, by simp⟩

lemma read_note_write_note (d : DocStore) (p c : String) :
    read_note (write_note d p c) p = some c := by
  unfold read_note write_note
  by_cases hany : d.notes.any (fun q => q.1 == p) = true
  · rw [if_pos hany]
    rw [find?_map_update (fun q => q.1 == p) (fun q => (q.1, c))
      (fun a => rfl) d.notes]
    rcases hfind : d.notes.find? (fun q => q.1 == p) with _ | q0
    · rcases List.any_eq_true.mp hany with ⟨x, hx, hPx⟩
      rw [List.find?_eq_none] at hfind
      exact absurd hPx (hfind x hx)
    · rw [hfind]
      rfl
  · rw [if_neg hany]
    have hfind : d.notes.find? (fun q => q.1 == p) = none := by
      rw [List.find?_eq_none]
      intro x hx hPx
      exact hany (List.any_eq_true.mpr ⟨x, hx, hPx⟩)
    rw [List.find?_append, hfind]
    simp [List.find?_cons]

/-! ## C2: write/read round trip (corrected) -/

/-- Counterexample to C2 as stated: write the empty string under key
`"k"`, then read it back with `exact_key = "k"`.  The exact tier skips
the present-but-empty note, so the single hit returned comes from the
vector tier with score 0 — not an exact-tier hit with score 1 carrying the
written content. -/
theorem round_trip_counterexample :
    (bus_read embed0 sim0 []
        (write_note_with_embedding embed0 none ⟨⟨[]⟩, ⟨[]⟩, none⟩
          "k" "" [] true).1
        "q" (some "k") 3).map (fun h => (h.source, h.score)) =
      [(Source.vector, 0)] := by
  rfl

/-- C2 (amended).  For a non-empty key and non-empty content, a successful
`write_note_with_embedding` followed immediately by `read` with
`exact_key = key` returns the written content unchanged as the first hit:
an exact-tier result with score 1.  (The claim fails as stated when the
written content is the empty string — see the counterexample — or when the
key is empty, both skipped by truthiness tests.) -/
theorem round_trip_nonempty (embed_fn : String → List ℚ)
    (sim : List ℚ → List ℚ → ℚ) (dirs : List String) (s : BusState)
    (key content query : String) (metadata : List (String × String))
    (embed : Bool) (n : ℕ) (hkey : key ≠ "") (hcontent : content ≠ "") :
    (bus_read embed_fn sim dirs
        (write_note_with_embedding embed_fn none s key content metadata
          embed).1 query (some key) n).head? =
      some ⟨Source.exact, some key, content, 1⟩ := by
  set s1 := (write_note_with_embedding embed_fn none s key content metadata
    embed).1 with hs1
  have hdoc : s1.doc = write_note s.doc key content := rfl
  have he : exact_tier s1.doc (some key) =
      [⟨Source.exact, some key, content, 1⟩] := by
    simp [exact_tier, hdoc, read_note_write_note, hkey, hcontent]
  obtain ⟨k, v, hdec, -⟩ := bus_read_spec embed_fn sim dirs s1 query
    (some key) n
  rw [hdec, he]
  rfl

/-- Witness for `round_trip_nonempty` at concrete non-empty key and
content. -/
theorem round_trip_nonempty_witness :
    "k" ≠ "" ∧ "hi" ≠ "" ∧
    (bus_read embed0 sim0 []
        (write_note_with_embedding embed0 none ⟨⟨[]⟩, ⟨[]⟩, none⟩
          "k" "hi" [] true).1 "q" (some "k") 3).head? =
      some ⟨Source.exact, some "k", "hi", 1⟩ :=
  ⟨by decide, by decide,
    round_trip_nonempty embed0 sim0 [] ⟨⟨[]⟩, ⟨[]⟩, none⟩ "k" "hi" "q" []
      true 3 (by decide) (by decide)⟩

/-! ## C9: read tiering (corrected) -/

/-- Counterexample to C9 as stated: with `max_results = 0` and an existing
non-empty note for the exact key, `read` still returns one hit — the exact
tier appends without consulting `max_results`. -/
theorem read_tiering_counterexample :
    (bus_read embed0 sim0 [] ⟨⟨[]⟩, ⟨[("k.md", "hello")]⟩, none⟩
        "q" (some "k.md") 0).length = 1 := by
  rfl

/-- C9 (amended).  For `max_results ≥ 1`, `read` returns at most
`max_results` hits, and the output decomposes as the exact-tier hits
followed by keyword hits followed by vector hits: the keyword tier only
runs when the exact tier left room (and `search_dirs` is non-empty) and
contributes at most the remaining slots; the vector tier only runs when
room remains and the index is non-empty, likewise capped; earlier tiers'
results are preserved unchanged in front.  (As stated the claim also
covered `max_results = 0`, where the exact tier can still produce one hit
— see the counterexample.) -/
theorem read_tiering (embed_fn : String → List ℚ)
    (sim : List ℚ → List ℚ → ℚ) (dirs : List String) (s : BusState)
    (query : String) (rp : Option String) (n : ℕ) (hn : 1 ≤ n) :
    (bus_read embed_fn sim dirs s query rp n).length ≤ n ∧
    ∃ k v,
      bus_read embed_fn sim dirs s query rp n =
        exact_tier s.doc rp ++ k ++ v ∧
      (∀ h ∈ k, h.source = Source.keyword) ∧
      (∀ h ∈ v, h.source = Source.vector) ∧
      (dirs = [] → k = []) ∧
      (n ≤ (exact_tier s.doc rp).length → k = []) ∧
      k.length ≤ n - (exact_tier s.doc rp).length ∧
      (vs_count s.vec = 0 → v = []) ∧
      (n ≤ (exact_tier s.doc rp).length + k.length → v = []) ∧
      v.length ≤ n - ((exact_tier s.doc rp).length + k.length) := by
  obtain ⟨k, v, hdec, hksrc, hvsrc, hkdirs, hkfull, hklen, hvcnt, hvfull,
    hvlen⟩ := bus_read_spec embed_fn sim dirs s query rp n
  have he1 : (exact_tier s.doc rp).length ≤ 1 := exact_tier_length s.doc rp
  refine ⟨?_, k, v, hdec, hksrc, hvsrc, hkdirs, hkfull, hklen, hvcnt,
    hvfull, hvlen⟩
  rw [hdec, List.length_append, List.length_append]
  omega

/-- Witness for `read_tiering` at `max_results = 2` on a one-note store. -/
theorem read_tiering_witness :
    1 ≤ 2 ∧
    (bus_read embed0 sim0 [] ⟨⟨[]⟩, ⟨[("k.md", "hello")]⟩, none⟩
        "q" (some "k.md") 2).length ≤ 2 :=
  ⟨by decide,
    (read_tiering embed0 sim0 [] ⟨⟨[]⟩, ⟨[("k.md", "hello")]⟩, none⟩
      "q" (some "k.md") 2 (by decide)).1⟩

/-! ## C10: empty note is invisible to the exact tier -/

/-- C10.  When the stored document content for a key is the empty string,
the exact tier produces nothing — exactly as for an absent note, because
`read` tests the returned content for truthiness — and consequently no hit
of the whole `read` call is an exact-tier hit. -/
theorem empty_note_reads_as_absent (embed_fn : String → List ℚ)
    (sim : List ℚ → List ℚ → ℚ) (dirs : List String) (s : BusState)
    (query key : String) (n : ℕ) (hkey : read_note s.doc key = some "") :
    exact_tier s.doc (some key) = [] ∧
    (∀ d' : DocStore, ∀ key' : String, read_note d' key' = none →
      exact_tier d' (some key') = []) ∧
    ∀ h ∈ bus_read embed_fn sim dirs s query (some key) n,
      h.source ≠ Source.exact := by
  have he : exact_tier s.doc (some key) = [] := by
    by_cases hk : key = ""
    · simp [exact_tier, hk]
    · simp [exact_tier, hk, hkey]
  refine ⟨he, ?_, ?_⟩
  · intro d' key' habsent
    by_cases hk : key' = ""
    · simp [exact_tier, hk]
    · simp [exact_tier, hk, habsent]
  · obtain ⟨k, v, hdec, hksrc, hvsrc, -⟩ := bus_read_spec embed_fn sim dirs
      s query (some key) n
    intro h hh
    rw [hdec, he, List.nil_append] at hh
    rcases List.mem_append.mp hh with hk' | hv'
    · rw [hksrc h hk']
      simp
    · rw [hvsrc h hv']
      simp

/-- Witness for `empty_note_reads_as_absent` on a store holding an empty
note under `"k.md"`. -/
theorem empty_note_reads_as_absent_witness :
    read_note (⟨[("k.md", "")]⟩ : DocStore) "k.md" = some "" ∧
    exact_tier (⟨[("k.md", "")]⟩ : DocStore) (some "k.md") = [] :=
  ⟨rfl,
    (empty_note_reads_as_absent embed0 sim0 [] ⟨⟨[]⟩, ⟨[("k.md", "")]⟩, none⟩
      "q" "k.md" 3 rfl).1⟩

end ArtemisCity
